import Mathlib

/-!
Verification development for the "Ligne d'influence" continuous-beam
influence-line engine.

The C++ sources are shallowly embedded: `double`/`float` arithmetic is
modelled exactly over `ℚ`, `std::vector<double>` as `List ℚ`, and the
imperative loops as structural recursions / `List.map` / `List.flatMap`
over the same iteration spaces.  Out-of-range `operator[]` accesses
(undefined behaviour in C++) are modelled with `Option` where a claim is
about them, and with `List.getD _ _ 0` where the surrounding code
guarantees the index is in range.  Constructor validation (`throw`) is
modelled with `Except`.
-/

namespace LigneInfluence

/-- Validation errors thrown by the constructors
(`std::invalid_argument` in the sources). -/
inductive ValErr where
  | tailleInertie      -- isostatique: I table and position table sizes differ
  | dernierePosition   -- isostatique: last position ≠ span length
  | positionTropGrande -- travee: a position exceeds the span length
  | positionNegative   -- travee: a negative position
  | tailleTravee       -- travee: I table and position table sizes differ
  | nonCroissant       -- travee: positions not strictly increasing
deriving DecidableEq, Repr

/-! ## isostatique (single determinate span), from
`src/logic/isostatique.cpp` -/

/-- `isostatique::alpha()` : observation grid of `division + 1` points;
the first `division` points are `(L/division)*i`, the last is exactly `L`. -/
def alphaGrid (L : ℚ) (division : ℕ) : List ℚ :=
  (List.range division).map (fun i : ℕ => (L / division) * (i : ℚ)) ++ [L]

/-- Pointwise body of `isostatique::M` : the triangular moment influence
value at observation point `x` for a unit load at `sigma`
(`i*(1-sigma/L)` for `i ≤ sigma`, `sigma*(1-i/L)` for `i > sigma`). -/
def momentAt (L x sigma : ℚ) : ℚ :=
  if x ≤ sigma then x * (1 - sigma / L) else sigma * (1 - x / L)

/-- `isostatique::M(sigma)` : for `sigma ≤ L`, one moment sample per grid
point; for `sigma > L`, the loop `for(i=0;i<division;++i) Mu.push_back(0)`
produces `division` zeros. -/
def isoM (L : ℚ) (division : ℕ) (sigma : ℚ) : List ℚ :=
  if sigma ≤ L then
    (alphaGrid L division).map (fun i => momentAt L i sigma)
  else
    List.replicate division 0

/-- Per-grid-point emission of `isostatique::T(sigma,false)` : one sample
`-i/L` for `i < sigma`, one sample `1-i/L` for `i > sigma`, and BOTH
branch values (stacked) for `i == sigma`. -/
def shearKernel (L sigma i : ℚ) : List ℚ :=
  if i < sigma then [-i / L]
  else if sigma < i then [1 - i / L]
  else [-i / L, 1 - i / L]

/-- Per-grid-point emission of the abscissas of `isostatique::T` : the
grid point equal to `sigma` is pushed twice. -/
def shearCoordKernel (sigma i : ℚ) : List ℚ :=
  if i < sigma then [i]
  else if sigma < i then [i]
  else [i, i]

/-- `isostatique::T(sigma,false)` : shear samples; for `sigma > L` the
loop pushes `division` zeros. -/
def isoT (L : ℚ) (division : ℕ) (sigma : ℚ) : List ℚ :=
  if sigma ≤ L then (alphaGrid L division).flatMap (shearKernel L sigma)
  else List.replicate division 0

/-- `isostatique::T(sigma,true)` : the abscissas paired with the shear
samples. -/
def isoTcoord (L : ℚ) (division : ℕ) (sigma : ℚ) : List ℚ :=
  if sigma ≤ L then (alphaGrid L division).flatMap (shearCoordKernel sigma)
  else alphaGrid L division

/-- `isostatique::OMEGA(sigma)` (constant-inertia branch) : rotation
samples; for `sigma > L` the vector is resized to `alpha().size()` zeros. -/
def isoOMEGA (L E I : ℚ) (division : ℕ) (sigma : ℚ) : List ℚ :=
  if sigma ≤ L then
    (alphaGrid L division).map (fun i =>
      if i ≤ sigma then ((L - i) * (L + i) - 3 * (L - sigma) ^ 2) * i / (6 * E * I * L)
      else -(i * (2 * L - i) - 3 * sigma ^ 2) * (L - i) / (6 * E * I * L))
  else
    List.replicate (division + 1) 0

/-- `isostatique::V(sigma)` (constant-inertia branch) : deflection
samples; for `sigma > L` the vector is resized to `alpha().size()` zeros. -/
def isoV (L E I : ℚ) (division : ℕ) (sigma : ℚ) : List ℚ :=
  if sigma ≤ L then
    (alphaGrid L division).map (fun i =>
      if i ≤ sigma then -(i * (L - sigma) / (6 * E * I * L)) * (sigma * (2 * L - sigma) - i ^ 2)
      else -(sigma * (L - i) / (6 * E * I * L)) * (i * (2 * L - i) - sigma ^ 2))
  else
    List.replicate (division + 1) 0

/-- `isostatique::omega_prime()` (constant-inertia branch). -/
def omegaPrimeList (L E I : ℚ) (division : ℕ) : List ℚ :=
  (alphaGrid L division).map (fun i => -i * (L - i) * (2 * L - i) / (6 * E * I * L))

/-- `isostatique::omega_second()` (constant-inertia branch). -/
def omegaSecondList (L E I : ℚ) (division : ℕ) : List ℚ :=
  (alphaGrid L division).map (fun i => i * (L - i) * (L + i) / (6 * E * I * L))

/-- `isostatique::moment_flechissant()` : one `M(sigma)` row per grid
load position. -/
def isoMomentSurface (L : ℚ) (division : ℕ) : List (List ℚ) :=
  (alphaGrid L division).map (fun sigma => isoM L division sigma)

/-- `isostatique::rotation()`. -/
def isoRotationSurface (L E I : ℚ) (division : ℕ) : List (List ℚ) :=
  (alphaGrid L division).map (fun sigma => isoOMEGA L E I division sigma)

/-- `isostatique::fleche()`. -/
def isoFlecheSurface (L E I : ℚ) (division : ℕ) : List (List ℚ) :=
  (alphaGrid L division).map (fun sigma => isoV L E I division sigma)

/-- `isostatique::effort_tranchant()`. -/
def isoShearSurface (L : ℚ) (division : ℕ) : List (List ℚ) :=
  (alphaGrid L division).map (fun sigma => isoT L division sigma)

/-! ## travee (span with stiffness coefficients), from
`src/logic/travee.cpp` -/

/-- `travee::a()` / `b()` / `c()` constant-inertia branches. -/
def aConst (L E I : ℚ) : ℚ :=
  L / (3 * E * I)

def bConst (L E I : ℚ) : ℚ :=
  L / (6 * E * I)

def cConst (L E I : ℚ) : ℚ :=
  L / (3 * E * I)

/-- Summation loop of the variable-inertia `travee::a()` :
`for i < pos.size()-1 : acc += (1/I[i]) * ((1-pos[i+1]/L)^3 - (1-pos[i]/L)^3)`.
The recursion walks the position pairs together with the inertia values. -/
def aVarSum (L : ℚ) : List ℚ → List ℚ → ℚ
  | i0 :: irest, p0 :: p1 :: ps =>
      (1 / i0) * ((1 - p1 / L) ^ 3 - (1 - p0 / L) ^ 3) + aVarSum L irest (p1 :: ps)
  | _, _ => 0

/-- Variable-inertia branch of `travee::a()` (note: it reads the RAW
constructor table stored in `travee`, not the normalized copy held by the
`isostatique` base object). -/
def aVar (L E : ℚ) (IVals pos : List ℚ) : ℚ :=
  aVarSum L IVals pos * (-L / (3 * E))

/-- Antiderivative helper `B(x,l) = x²/(2l) − x³/(3l²)` used by the
variable-inertia `travee::b()`. -/
def Bfun (x l : ℚ) : ℚ :=
  x ^ 2 / (2 * l) - x ^ 3 / (3 * l ^ 2)

/-- Summation loop of the variable-inertia `travee::b()`. -/
def bVarSum (L : ℚ) : List ℚ → List ℚ → ℚ
  | i0 :: irest, p0 :: p1 :: ps =>
      (1 / i0) * (Bfun p1 L - Bfun p0 L) + bVarSum L irest (p1 :: ps)
  | _, _ => 0

/-- Variable-inertia branch of `travee::b()`. -/
def bVar (L E : ℚ) (IVals pos : List ℚ) : ℚ :=
  bVarSum L IVals pos * (1 / E)

/-- Summation loop of the variable-inertia `travee::c()` :
`acc += (1/I[i]) * (pos[i+1]³ − pos[i]³)` (no 1/3 factor appears). -/
def cVarSum : List ℚ → List ℚ → ℚ
  | i0 :: irest, p0 :: p1 :: ps =>
      (1 / i0) * (p1 ^ 3 - p0 ^ 3) + cVarSum irest (p1 :: ps)
  | _, _ => 0

/-- Variable-inertia branch of `travee::c()`. -/
def cVar (L E : ℚ) (IVals pos : List ℚ) : ℚ :=
  cVarSum IVals pos * (1 / (E * L ^ 2))

/-- Normalization performed by the variable-inertia `isostatique`
constructor on ITS OWN copies of the tables: a single inertia value `a`
becomes values `[a, a]` at positions `[0, L]`. -/
def normalizeTable (L : ℚ) (IVals pos : List ℚ) : List ℚ × List ℚ :=
  if IVals.length = 1 then ([IVals.getD 0 0, IVals.getD 0 0], [0, L]) else (IVals, pos)

/-- Element loop of the `travee` constructor: for each position,
`pos[i] > L` throws, then `pos[i] < 0` throws. -/
def checkPosBounds (L : ℚ) : List ℚ → Except ValErr Unit
  | [] => Except.ok ()
  | p :: ps =>
      if L < p then Except.error ValErr.positionTropGrande
      else if p < 0 then Except.error ValErr.positionNegative
      else checkPosBounds L ps

/-- Strict-increase loop of the `travee` constructor:
`pos[i] >= pos[i+1]` throws. -/
def checkStrictInc : List ℚ → Except ValErr Unit
  | p0 :: p1 :: ps =>
      if p1 ≤ p0 then Except.error ValErr.nonCroissant
      else checkStrictInc (p1 :: ps)
  | _ => Except.ok ()

/-- Full validation sequence of constructing a variable-inertia `travee`:
first the `isostatique` base constructor runs (normalizing its own copy of
a single-value table, then checking table sizes and that the last position
equals `L`), then the `travee` body checks the RAW tables (bounds, sizes,
strict increase).  `back()` on an empty vector is undefined behaviour in
the source; here the last-position check simply fails for an empty table.
Neither constructor ever inspects `L`, `E` or `division`. -/
def construireTravee (L E : ℚ) (IVals pos : List ℚ) (division : ℤ) : Except ValErr Unit :=
  if (normalizeTable L IVals pos).1.length ≠ (normalizeTable L IVals pos).2.length then
    Except.error ValErr.tailleInertie
  else if (normalizeTable L IVals pos).2.getLast? ≠ some L then
    Except.error ValErr.dernierePosition
  else
    match checkPosBounds L pos with
    | Except.error e => Except.error e
    | Except.ok _ =>
        if pos.length ≠ IVals.length then Except.error ValErr.tailleTravee
        else checkStrictInc pos

/-! ## rapport_focau (focal-ratio solver), from
`src/logic/rapport_focau.cpp` -/

/-- Loop body of `rapport_focau::phy()` : iterates `i` from `0`,
carrying the previous φ value (`phy_premier`, initially 0); for `i = 0`
the value stays 0, otherwise
`φ = b[i] / (a[i] + c[i-1] − b[i-1]·φprev)`. `fuel` counts the remaining
iterations (`nb_travee − i`). -/
def phyLoop (a b c : List ℚ) : ℕ → ℕ → ℚ → List ℚ
  | 0, _, _ => []
  | fuel + 1, i, prev =>
      let cur :=
        if i = 0 then prev
        else b.getD i 0 / (a.getD i 0 + c.getD (i - 1) 0 - b.getD (i - 1) 0 * prev)
      cur :: phyLoop a b c fuel (i + 1) cur

/-- `rapport_focau::phy()`. -/
def phy (a b c : List ℚ) (nbTravee : ℕ) : List ℚ :=
  phyLoop a b c nbTravee 0 0

/-- Loop body of `rapport_focau::phy_prime()` : iterates `i` from
`nb_travee` down to `1`; at `i = nb_travee` the value is 0, otherwise
`φ' = b[i-1] / (c[i-1] + a[i] − b[i]·φ'prev)`. `fuel` counts the remaining
iterations (`i`). -/
def phyPrimeLoop (a b c : List ℚ) (nbTravee : ℕ) : ℕ → ℕ → ℚ → List ℚ
  | 0, _, _ => []
  | fuel + 1, i, prev =>
      let cur :=
        if i = nbTravee then 0
        else b.getD (i - 1) 0 / (c.getD (i - 1) 0 + a.getD i 0 - b.getD i 0 * prev)
      cur :: phyPrimeLoop a b c nbTravee fuel (i - 1) cur

/-- `rapport_focau::phy_prime()` : computed right-to-left, then the list
is reversed into span-index order. -/
def phyPrime (a b c : List ℚ) (nbTravee : ℕ) : List ℚ :=
  (phyPrimeLoop a b c nbTravee nbTravee nbTravee 0).reverse

/-! ## traitement (post-processing), from `src/logic/traitement.cpp` -/

/-- `std::is_sorted` (non-descending) on the abscissa vector. -/
def sortedB : List ℚ → Bool
  | p0 :: p1 :: ps => if p0 ≤ p1 then sortedB (p1 :: ps) else false
  | _ => true

/-- `x.size() - 1` computed in `size_t` arithmetic: for an empty vector
the subtraction wraps around to `2^64 − 1`. -/
def sizeSub1 (n : ℕ) : ℕ :=
  (n + (2 ^ 64 - 1)) % 2 ^ 64

/-- Summation loop of `traitement::trapeze` : `fuel` iterations remain,
`i` is the loop index, `aire` the running area and `err` the compensated
error term.  Every `operator[]` access is modelled with `List.getElem?`;
an out-of-range access (undefined behaviour in C++) yields `none`.
A non-positive interval throws the documented error. -/
def trapezeLoop (x y : List ℚ) : ℕ → ℕ → ℚ → ℚ → Option (Except ValErr ℚ)
  | 0, _, aire, err => some (Except.ok (aire + err))
  | fuel + 1, i, aire, err =>
      match x[i]?, x[i + 1]?, y[i]?, y[i + 1]? with
      | some xi, some xi1, some yi, some yi1 =>
          let hauteur := xi1 - xi
          if hauteur ≤ 0 then some (Except.error ValErr.nonCroissant)
          else
            let aireTrapeze := (yi + yi1) * hauteur / 2
            let temp := aire + aireTrapeze
            trapezeLoop x y fuel (i + 1) temp (err + ((aire - temp) + aireTrapeze))
      | _, _, _, _ => none

/-- `traitement::trapeze` : validates equal sizes and sortedness, then
runs the trapezoid loop `x.size() - 1` (in `size_t`) times.  The final
NaN/Inf test of the source can never fire over exact rationals and is
omitted.  `none` marks an out-of-bounds vector access (C++ UB). -/
def trapeze (x y : List ℚ) : Option (Except ValErr ℚ) :=
  if x.length ≠ y.length then some (Except.error ValErr.tailleInertie)
  else if sortedB x = false then some (Except.error ValErr.nonCroissant)
  else trapezeLoop x y (sizeSub1 x.length) 0 0 0

/-- Sign predicate of `traitement::split_by_sign` : `input[i] >= 0`
(zero counts as non-negative). -/
def signB (x : ℚ) : Bool :=
  decide (0 ≤ x)

/-- Main loop of `traitement::split_by_sign` : carries the current
sublist (always nonempty), its sign, and the completed runs. -/
def splitGo : List ℚ → List ℚ → Bool → List (List ℚ) → List (List ℚ)
  | [], cur, _, res => res ++ [cur]
  | x :: xs, cur, s, res =>
      if signB x ≠ s then splitGo xs [x] (signB x) (res ++ [cur])
      else splitGo xs (cur ++ [x]) s res

/-- `traitement::split_by_sign`. -/
def split_by_sign : List ℚ → List (List ℚ)
  | [] => []
  | x :: xs => splitGo xs [x] (signB x) []

/-! ## hyperstatique (multi-span indeterminate solver), from
`src/logic/hyperstatique.cpp`.  The constant-inertia constructor path is
embedded: each derived artifact is a function of the per-span lengths
`Ls`, moduli `Es`, inertias `Is` and the division count `d`. -/

/-- `interpolate(m,n,x,l) = m·(1−x/l) + n·x/l`. -/
def interpolate (m n x l : ℚ) : ℚ :=
  m * (1 - x / l) + n * x / l

/-- `calcul_rotation(m,n,x,l,E,I)`. -/
def calculRotation (m n x l E I : ℚ) : ℚ :=
  -m * (2 * l ^ 2 - 6 * l * x + 3 * x ^ 2) / (6 * E * I * l)
    - n * (l ^ 2 - 3 * x ^ 2) / (6 * E * I * l)

/-- `calcul_fleche(m,n,x,l,E,I)`. -/
def calculFleche (m n x l E I : ℚ) : ℚ :=
  -m * x * (l - x) * (2 * l - x) / (6 * E * I * l)
    - n * x * (l - x) * (l + x) / (6 * E * I * l)

/-- `interpolate_effort_tranchant(m,n,l) = (−m + n)/l`. -/
def interpolateEffortTranchant (m n l : ℚ) : ℚ :=
  (-m + n) / l

/-- `hyperstatique::a_tr()` (constant inertia, via `travee::a`). -/
def aTr (Ls Es Is : List ℚ) : List ℚ :=
  (List.range Ls.length).map (fun i => aConst (Ls.getD i 0) (Es.getD i 0) (Is.getD i 0))

/-- `hyperstatique::b_tr()`. -/
def bTr (Ls Es Is : List ℚ) : List ℚ :=
  (List.range Ls.length).map (fun i => bConst (Ls.getD i 0) (Es.getD i 0) (Is.getD i 0))

/-- `hyperstatique::c_tr()`. -/
def cTr (Ls Es Is : List ℚ) : List ℚ :=
  (List.range Ls.length).map (fun i => cConst (Ls.getD i 0) (Es.getD i 0) (Is.getD i 0))

/-- The cached `phy` member (`rapport_focau::phy()` on `a_tr,b_tr,c_tr`). -/
def phyAll (Ls Es Is : List ℚ) : List ℚ :=
  phy (aTr Ls Es Is) (bTr Ls Es Is) (cTr Ls Es Is) Ls.length

/-- The cached `phy_prime` member. -/
def phyPrimeAll (Ls Es Is : List ℚ) : List ℚ :=
  phyPrime (aTr Ls Es Is) (bTr Ls Es Is) (cTr Ls Es Is) Ls.length

/-- `hyperstatique::omega_prime_tr()`. -/
def omegaPrimeTr (Ls Es Is : List ℚ) (d : ℕ) : List (List ℚ) :=
  (List.range Ls.length).map (fun i => omegaPrimeList (Ls.getD i 0) (Es.getD i 0) (Is.getD i 0) d)

/-- `hyperstatique::omega_second_tr()`. -/
def omegaSecondTr (Ls Es Is : List ℚ) (d : ℕ) : List (List ℚ) :=
  (List.range Ls.length).map (fun i => omegaSecondList (Ls.getD i 0) (Es.getD i 0) (Is.getD i 0) d)

/-- The cached `alpha` member: the observation grid of each span. -/
def alphaAll (Ls : List ℚ) (d : ℕ) : List (List ℚ) :=
  (List.range Ls.length).map (fun i => alphaGrid (Ls.getD i 0) d)

/-- `hyperstatique::moment_au_appuit_travee_charger_gauche()` :
`left[i][j] = (φ[i]/b[i]) · (ω′[i][j] + ω″[i][j]·φ′[i]) / (1 − φ[i]·φ′[i])`. -/
def momentGauche (Ls Es Is : List ℚ) (d : ℕ) : List (List ℚ) :=
  (List.range Ls.length).map (fun i =>
    (List.range (d + 1)).map (fun j =>
      ((phyAll Ls Es Is).getD i 0 / (bTr Ls Es Is).getD i 0) *
        (((omegaPrimeTr Ls Es Is d).getD i []).getD j 0 +
            ((omegaSecondTr Ls Es Is d).getD i []).getD j 0 * (phyPrimeAll Ls Es Is).getD i 0) /
          (1 - (phyAll Ls Es Is).getD i 0 * (phyPrimeAll Ls Es Is).getD i 0)))

/-- `hyperstatique::moment_au_appuit_travee_charger_droite()` :
`right[i][j] = −(φ′[i]/b[i]) · (ω′[i][j]·φ[i] + ω″[i][j]) / (1 − φ[i]·φ′[i])`. -/
def momentDroite (Ls Es Is : List ℚ) (d : ℕ) : List (List ℚ) :=
  (List.range Ls.length).map (fun i =>
    (List.range (d + 1)).map (fun j =>
      -((phyPrimeAll Ls Es Is).getD i 0 / (bTr Ls Es Is).getD i 0) *
        (((omegaPrimeTr Ls Es Is d).getD i []).getD j 0 * (phyAll Ls Es Is).getD i 0 +
            ((omegaSecondTr Ls Es Is d).getD i []).getD j 0) /
          (1 - (phyAll Ls Es Is).getD i 0 * (phyPrimeAll Ls Es Is).getD i 0)))

/-- `hyperstatique::prod_list(liste, debut, fin)` : product of
`liste[debut..fin]` inclusive over `int` bounds (empty when `fin < debut`). -/
def prodList (liste : List ℚ) (debut fin : ℤ) : ℚ :=
  if fin < debut then 1
  else ((List.range (fin - debut + 1).toNat).map
    (fun k : ℕ => liste.getD (debut + (k : ℤ)).toNat 0)).prod

/-- `hyperstatique::m_appuis_gauche(index_travee)` : rows `i = 0..it`,
each scaling `left[it]` by `(−1)^(it−i) · Π_{t=i}^{it−1} φ[t]`. -/
def mAppuisGauche (Ls Es Is : List ℚ) (d : ℕ) (it : ℕ) : List (List ℚ) :=
  (List.range (it + 1)).map (fun i =>
    ((momentGauche Ls Es Is d).getD it []).map (fun v =>
      (-1 : ℚ) ^ (it - i) * prodList (phyAll Ls Es Is) i ((it : ℤ) - 1) * v))

/-- `hyperstatique::m_appuis_droite(index_travee)` : rows `g = it..N−1`,
each scaling `right[it]` by `pow(−1, it−g) · Π_{t=it+1}^{g} φ′[t]`.
`std::pow(−1.0, it−g)` with the non-positive integer exponent `it−g`
equals `((−1)^(g−it))⁻¹`. -/
def mAppuisDroite (Ls Es Is : List ℚ) (d : ℕ) (it : ℕ) : List (List ℚ) :=
  (List.range (Ls.length - it)).map (fun k : ℕ =>
    ((momentDroite Ls Es Is d).getD it []).map (fun v =>
      ((-1 : ℚ) ^ k)⁻¹ * prodList (phyPrimeAll Ls Es Is) ((it : ℤ) + 1) ((it : ℤ) + (k : ℤ)) * v))

/-- The cached `GAUCHE_DROITE` member (`hyperstatique::tr_G_D()`) :
for each loaded span `i`, the left rows then the right rows —
`N + 1` support rows of `d + 1` load positions each. -/
def gaucheDroite (Ls Es Is : List ℚ) (d : ℕ) : List (List (List ℚ)) :=
  (List.range Ls.length).map (fun i =>
    mAppuisGauche Ls Es Is d i ++ mAppuisDroite Ls Es Is d i)

/-- Access `GAUCHE_DROITE[i][t][j]`. -/
def gdGet (Ls Es Is : List ℚ) (d : ℕ) (i t j : ℕ) : ℚ :=
  (((gaucheDroite Ls Es Is d).getD i []).getD t []).getD j 0

/-- The cached `Mu_iso_total` member (`hyperstatique::Mu_total()`). -/
def muIsoTotal (Ls : List ℚ) (d : ℕ) : List (List (List ℚ)) :=
  (List.range Ls.length).map (fun t => isoMomentSurface (Ls.getD t 0) d)

/-- The cached `W_iso_total` member. -/
def wIsoTotal (Ls Es Is : List ℚ) (d : ℕ) : List (List (List ℚ)) :=
  (List.range Ls.length).map (fun t =>
    isoRotationSurface (Ls.getD t 0) (Es.getD t 0) (Is.getD t 0) d)

/-- The cached `V_iso_total` member. -/
def vIsoTotal (Ls Es Is : List ℚ) (d : ℕ) : List (List (List ℚ)) :=
  (List.range Ls.length).map (fun t =>
    isoFlecheSurface (Ls.getD t 0) (Es.getD t 0) (Is.getD t 0) d)

/-- The cached `T_iso_total` member. -/
def tIsoTotal (Ls : List ℚ) (d : ℕ) : List (List (List ℚ)) :=
  (List.range Ls.length).map (fun t => isoShearSurface (Ls.getD t 0) d)

/-- `hyperstatique::M_flechissant()` : for observed span `t` and section
index `k` (section abscissa `alpha[t][k]`), the inner loop runs over
loaded spans `i` and load positions `j`, pushing
`interpolate(GAUCHE_DROITE[i][t][j], GAUCHE_DROITE[i][t+1][j], section, L[t])`
plus the isostatic `Mu_iso_total[t][k][j]` exactly when `t == i`. -/
def mFlechissant (Ls Es Is : List ℚ) (d : ℕ) : List (List (List ℚ)) :=
  (List.range Ls.length).map (fun t =>
    (List.range (d + 1)).map (fun k =>
      (List.range Ls.length).flatMap (fun i =>
        (List.range (d + 1)).map (fun j =>
          if t = i then
            (((muIsoTotal Ls d).getD t []).getD k []).getD j 0 +
              interpolate (gdGet Ls Es Is d i t j) (gdGet Ls Es Is d i (t + 1) j)
                ((alphaGrid (Ls.getD t 0) d).getD k 0) (Ls.getD t 0)
          else
            interpolate (gdGet Ls Es Is d i t j) (gdGet Ls Es Is d i (t + 1) j)
              ((alphaGrid (Ls.getD t 0) d).getD k 0) (Ls.getD t 0)))))

/-- `hyperstatique::W_rotaion()` : like `M_flechissant` but with
`calcul_rotation` of the two support moments, evaluated at `x = alpha[t][j]`
with span `t`'s length, modulus and (constant) inertia; the isostatic
rotation is added exactly when `t == i`. -/
def wRotaion (Ls Es Is : List ℚ) (d : ℕ) : List (List (List ℚ)) :=
  (List.range Ls.length).map (fun t =>
    (List.range (d + 1)).map (fun k =>
      (List.range Ls.length).flatMap (fun i =>
        (List.range (d + 1)).map (fun j =>
          if t = i then
            (((wIsoTotal Ls Es Is d).getD t []).getD k []).getD j 0 +
              calculRotation (gdGet Ls Es Is d i t j) (gdGet Ls Es Is d i (t + 1) j)
                ((alphaGrid (Ls.getD t 0) d).getD j 0) (Ls.getD t 0) (Es.getD t 0) (Is.getD t 0)
          else
            calculRotation (gdGet Ls Es Is d i t j) (gdGet Ls Es Is d i (t + 1) j)
              ((alphaGrid (Ls.getD t 0) d).getD j 0) (Ls.getD t 0) (Es.getD t 0)
              (Is.getD t 0)))))

/-- `hyperstatique::V_fleche()` : like `W_rotaion` with `calcul_fleche`. -/
def vFleche (Ls Es Is : List ℚ) (d : ℕ) : List (List (List ℚ)) :=
  (List.range Ls.length).map (fun t =>
    (List.range (d + 1)).map (fun k =>
      (List.range Ls.length).flatMap (fun i =>
        (List.range (d + 1)).map (fun j =>
          if t = i then
            (((vIsoTotal Ls Es Is d).getD t []).getD k []).getD j 0 +
              calculFleche (gdGet Ls Es Is d i t j) (gdGet Ls Es Is d i (t + 1) j)
                ((alphaGrid (Ls.getD t 0) d).getD j 0) (Ls.getD t 0) (Es.getD t 0) (Is.getD t 0)
          else
            calculFleche (gdGet Ls Es Is d i t j) (gdGet Ls Es Is d i (t + 1) j)
              ((alphaGrid (Ls.getD t 0) d).getD j 0) (Ls.getD t 0) (Es.getD t 0)
              (Is.getD t 0)))))

/-- Walk of `hyperstatique::T_effort_tranchant()` over the grid of the
loaded-own span (`index_travee == i` branch): for each grid point
`alpha[t][j]` a shear-interpolation correction is computed; when the
observed section coincides with the grid point, TWO consecutive isostatic
samples `T[compteur]`, `T[compteur+1]` receive the SAME correction,
otherwise one.  `grid` drives `j`, `c` is `compteur`, and `T0` is the
isostatic shear row. -/
def tWalk (T0 rowT rowT1 : List ℚ) (l s : ℚ) : List ℚ → ℕ → ℕ → List ℚ
  | [], _, _ => []
  | x :: rest, j, c =>
      if s = x then
        (T0.getD c 0 + interpolateEffortTranchant (rowT.getD j 0) (rowT1.getD j 0) l) ::
          (T0.getD (c + 1) 0 + interpolateEffortTranchant (rowT.getD j 0) (rowT1.getD j 0) l) ::
          tWalk T0 rowT rowT1 l s rest (j + 1) (c + 2)
      else
        (T0.getD c 0 + interpolateEffortTranchant (rowT.getD j 0) (rowT1.getD j 0) l) ::
          tWalk T0 rowT rowT1 l s rest (j + 1) (c + 1)

/-- `hyperstatique::T_effort_tranchant(false)` : per observed span `t` and
section `k`, the own-span block walks the isostatic shear row with
corrections; foreign-span blocks push the bare corrections. -/
def tEffortTranchant (Ls Es Is : List ℚ) (d : ℕ) : List (List (List ℚ)) :=
  (List.range Ls.length).map (fun t =>
    (List.range (d + 1)).map (fun k =>
      (List.range Ls.length).flatMap (fun i =>
        if t = i then
          tWalk (((tIsoTotal Ls d).getD t []).getD k [])
            (((gaucheDroite Ls Es Is d).getD i []).getD t [])
            (((gaucheDroite Ls Es Is d).getD i []).getD (t + 1) [])
            (Ls.getD t 0) ((alphaGrid (Ls.getD t 0) d).getD k 0)
            (alphaGrid (Ls.getD t 0) d) 0 0
        else
          (List.range (d + 1)).map (fun j =>
            interpolateEffortTranchant (gdGet Ls Es Is d i t j)
              (gdGet Ls Es Is d i (t + 1) j) (Ls.getD t 0)))))

/-! ## Recursive reference sequences for the focal ratios (used to reason
about the imperative loops of `rapport_focau`). -/

/-- Forward focal-ratio sequence: `φ₀ = 0`,
`φᵢ = b[i] / (a[i] + c[i−1] − b[i−1]·φᵢ₋₁)`. -/
def phiSpecF (a b c : List ℚ) : ℕ → ℚ
  | 0 => 0
  | i + 1 => b.getD (i + 1) 0 / (a.getD (i + 1) 0 + c.getD i 0 - b.getD i 0 * phiSpecF a b c i)

/-- Backward focal-ratio sequence indexed by the distance `k` from the
last span: `ppSpecF n 0 = φ'[n−1] = 0` and `ppSpecF n (k+1) = φ'[n−2−k]`. -/
def ppSpecF (a b c : List ℚ) (n : ℕ) : ℕ → ℚ
  | 0 => 0
  | k + 1 => b.getD (n - 2 - k) 0 /
      (c.getD (n - 2 - k) 0 + a.getD (n - 1 - k) 0 - b.getD (n - 1 - k) 0 * ppSpecF a b c n k)

/-- Alternating-run shape of the output of `split_by_sign` : every chunk
is nonempty, the first chunk carries sign `s`, and the signs strictly
alternate from chunk to chunk. -/
def altChunks : Bool → List (List ℚ) → Prop
  | _, [] => True
  | s, g :: gs => g ≠ [] ∧ (∀ a ∈ g, signB a = s) ∧ altChunks (!s) gs

/-! # Theorems -/

/-! ## General list helpers -/

theorem getD_range_map {α : Type} (f : ℕ → α) (dflt : α) {n k : ℕ} (hk : k < n) :
    ((List.range n).map f).getD k dflt = f k := by
  rw [List.getD_eq_getElem _ _ (by simpa using hk), List.getElem_map, List.getElem_range]

theorem map_getD_range {α : Type} (l : List α) (dflt : α) :
    (List.range l.length).map (fun k => l.getD k dflt) = l := by
  apply List.ext_getElem (by simp)
  intro n h1 h2
  rw [List.getElem_map, List.getElem_range, List.getD_eq_getElem _ _ h2]

theorem getD_of_forall_zero {l : List ℚ} (h : ∀ v ∈ l, v = 0) (j : ℕ) :
    l.getD j 0 = 0 := by
  rcases lt_or_le j l.length with hj | hj
  · rw [List.getD_eq_getElem _ _ hj]
    exact h _ (List.getElem_mem hj)
  · rw [List.getD_eq_getElem?_getD, List.getElem?_eq_none hj]
    rfl

theorem getD_drop_cons {α : Type} {l r : List α} {a : α} {c : ℕ} (dflt : α)
    (h : l.drop c = a :: r) : l.getD c dflt = a := by
  have h0 : (l.drop c)[0]? = some a := by rw [h]; simp
  rw [List.getElem?_drop] at h0
  simp only [Nat.add_zero] at h0
  rw [List.getD_eq_getElem?_getD, h0]
  rfl

theorem drop_succ_of_drop_cons {α : Type} {l r : List α} {a : α} {c : ℕ}
    (h : l.drop c = a :: r) : l.drop (c + 1) = r := by
  have := List.drop_drop 1 c l
  rw [h] at this
  simpa using this.symm

theorem flatMap_range_blocks (m : ℕ) :
    ∀ (n : ℕ) (g : ℕ → ℕ → ℚ) (i j : ℕ), i < n → j < m →
      ((List.range n).flatMap (fun i2 => (List.range m).map (g i2))).getD (i * m + j) 0 = g i j := by
  intro n
  induction n with
  | zero => intro g i j hi _; omega
  | succ n ih =>
      intro g i j hi hj
      rw [List.range_succ_eq_map, List.flatMap_cons, List.flatMap_map]
      cases i with
      | zero =>
          rw [Nat.zero_mul, Nat.zero_add,
            List.getD_append _ _ _ _ (by simpa using hj)]
          exact getD_range_map _ _ hj
      | succ i =>
          have hlen : ((List.range m).map (g 0)).length = m := by simp
          have hmul : (i + 1) * m = i * m + m := by ring
          have hge : ((List.range m).map (g 0)).length ≤ (i + 1) * m + j := by
            rw [hlen]; omega
          rw [List.getD_append_right _ _ _ _ hge, hlen]
          have harith : (i + 1) * m + j - m = i * m + j := by omega
          rw [harith]
          exact ih (fun i2 => g (i2 + 1)) i j (by omega) hj

/-! ## Facts about the observation grid -/

theorem alphaGrid_length (L : ℚ) (d : ℕ) : (alphaGrid L d).length = d + 1 := by
  simp [alphaGrid]

theorem alphaGrid_mem_bounds {L : ℚ} {d : ℕ} (hL : 0 < L) (hd : 1 ≤ d) :
    ∀ x ∈ alphaGrid L d, 0 ≤ x ∧ x ≤ L := by
  intro x hx
  rcases List.mem_append.mp hx with hx | hx
  · rcases List.mem_map.mp hx with ⟨i, hi, rfl⟩
    have hi' : (i : ℚ) < d := by exact_mod_cast List.mem_range.mp hi
    have hd0 : (0 : ℚ) < d := by
      have : (1 : ℚ) ≤ d := by exact_mod_cast hd
      linarith
    have hdiv : 0 < L / d := div_pos hL hd0
    constructor
    · positivity
    · have h1 : L / d * i ≤ L / d * d := by
        apply mul_le_mul_of_nonneg_left (le_of_lt hi') (le_of_lt hdiv)
      calc L / d * i ≤ L / d * d := h1
        _ = L := div_mul_cancel₀ L (ne_of_gt hd0)
  · simp only [List.mem_singleton] at hx
    rw [hx]
    exact ⟨le_of_lt hL, le_rfl⟩

theorem alphaGrid_pairwise {L : ℚ} {d : ℕ} (hL : 0 < L) (hd : 1 ≤ d) :
    List.Pairwise (· < ·) (alphaGrid L d) := by
  have hd0 : (0 : ℚ) < d := by
    have : (1 : ℚ) ≤ d := by exact_mod_cast hd
    linarith
  have hdiv : 0 < L / d := div_pos hL hd0
  rw [alphaGrid, List.pairwise_append]
  refine ⟨?_, ?_, ?_⟩
  · apply List.Pairwise.map (fun i : ℕ => (L / d) * (i : ℚ)) ?_ (List.pairwise_lt_range d)
    intro i j hij
    have : (i : ℚ) < j := by exact_mod_cast hij
    exact mul_lt_mul_of_pos_left this hdiv
  · simp
  · intro x hx y hy
    simp only [List.mem_singleton] at hy
    rcases List.mem_map.mp hx with ⟨i, hi, rfl⟩
    have hi' : (i : ℚ) < d := by exact_mod_cast List.mem_range.mp hi
    rw [hy]
    calc L / d * i < L / d * d := mul_lt_mul_of_pos_left hi' hdiv
      _ = L := div_mul_cancel₀ L (ne_of_gt hd0)

/-! ## C8 : Maxwell–Betti reciprocity of the moment influence formula -/

/-- C8: the single-span moment influence value
(`x·(1−σ/L)` for `x ≤ σ`, `σ·(1−x/L)` for `x > σ`) is symmetric in the
load position and the observation point: `momentAt L x σ = momentAt L σ x`
for all `x, σ ∈ [0, L]` with `L > 0`. -/
theorem momentAt_reciprocity (L x σ : ℚ) (hL : 0 < L) (hx0 : 0 ≤ x) (hxL : x ≤ L)
    (hs0 : 0 ≤ σ) (hsL : σ ≤ L) : momentAt L x σ = momentAt L σ x := by
  unfold momentAt
  rcases le_total x σ with h | h
  · by_cases h2 : σ ≤ x
    · have hxs : x = σ := le_antisymm h h2
      rw [hxs]
    · rw [if_pos h, if_neg h2]
  · by_cases h2 : x ≤ σ
    · have hxs : x = σ := le_antisymm h2 h
      rw [hxs]
    · rw [if_neg h2, if_pos h]

theorem momentAt_reciprocity_witness :
    (0:ℚ) < 5 ∧ (0:ℚ) ≤ 1 ∧ (1:ℚ) ≤ 5 ∧ (0:ℚ) ≤ 3 ∧ (3:ℚ) ≤ 5 ∧
      momentAt 5 1 3 = momentAt 5 3 1 :=
  ⟨by norm_num, by norm_num, by norm_num, by norm_num, by norm_num,
    momentAt_reciprocity 5 1 3 (by norm_num) (by norm_num) (by norm_num) (by norm_num)
      (by norm_num)⟩

/-! ## C6 : behaviour for a load position beyond the span -/

/-- C6 (amended): for `σ > L` every single-span evaluation returns an
all-zero vector without any error, but `T` and `M` produce `division`
entries (their zero-loops run `for i < division`) while `OMEGA` and `V`
produce `division + 1` entries (they resize to `alpha().size()`). -/
theorem sigma_beyond_span_all_zero (L E I : ℚ) (d : ℕ) (σ : ℚ) (h : L < σ) :
    isoT L d σ = List.replicate d 0 ∧ isoM L d σ = List.replicate d 0 ∧
      isoOMEGA L E I d σ = List.replicate (d + 1) 0 ∧
      isoV L E I d σ = List.replicate (d + 1) 0 := by
  have h' : ¬ σ ≤ L := not_le.mpr h
  refine ⟨?_, ?_, ?_, ?_⟩ <;> simp [isoT, isoM, isoOMEGA, isoV, h']

/-- C6 counterexample: at `L = 1`, `division = 2`, `σ = 2 > L` the shear
evaluation returns only `division = 2` entries, not `division + 1 = 3` as
the claim states. -/
theorem sigma_beyond_span_counterexample :
    (1:ℚ) < 2 ∧ (isoT 1 2 2).length = 2 ∧ ¬ (isoT 1 2 2).length = 2 + 1 := by
  have h' : ¬ (2:ℚ) ≤ 1 := by norm_num
  refine ⟨by norm_num, ?_, ?_⟩ <;> simp [isoT, h']

theorem sigma_beyond_span_all_zero_witness :
    (1:ℚ) < 2 ∧ (isoT 1 2 2 = List.replicate 2 0 ∧ isoM 1 2 2 = List.replicate 2 0 ∧
      isoOMEGA 1 1 1 2 2 = List.replicate 3 0 ∧ isoV 1 1 1 2 2 = List.replicate 3 0) :=
  ⟨by norm_num, sigma_beyond_span_all_zero 1 1 1 2 2 (by norm_num)⟩

/-! ## C4 : single-value variable-inertia table vs constant inertia -/

/-- C4: the `isostatique` base constructor does normalize a single-value
table `[5]` to values `[5,5]` at positions `[0,L]`, but `travee`'s own
copies are the raw one-element table, so the variable-inertia
`a()`, `b()`, `c()` all sum over zero segments and return `0` instead of
the constant-inertia values; and even on the normalized two-point table
`c()` omits the `1/3` factor of `∫x²dx`, giving `1/5 = 3 × (1/15)`
instead of the constant-inertia `c = L/(3·E·I) = 1/15` — contradicting
its own documentation (`c()` "est identique à `a()`") and the spec's
regression requirement of identical results. -/
theorem variable_inertia_single_value_bug :
    normalizeTable 1 [5] [1] = ([5, 5], [0, 1]) ∧
      aConst 1 1 5 = 1/15 ∧ bConst 1 1 5 = 1/30 ∧ cConst 1 1 5 = 1/15 ∧
      aVar 1 1 [5] [1] = 0 ∧ bVar 1 1 [5] [1] = 0 ∧ cVar 1 1 [5] [1] = 0 ∧
      aVar 1 1 [5, 5] [0, 1] = 1/15 ∧ bVar 1 1 [5, 5] [0, 1] = 1/30 ∧
      cVar 1 1 [5, 5] [0, 1] = 1/5 ∧ ¬ cVar 1 1 [5, 5] [0, 1] = cConst 1 1 5 := by
  refine ⟨?_, ?_, ?_, ?_, ?_, ?_, ?_, ?_, ?_, ?_, ?_⟩ <;>
    norm_num [normalizeTable, aConst, bConst, cConst, aVar, bVar, cVar,
      aVarSum, bVarSum, cVarSum, Bfun]

/-! ## C5 : the shear discontinuity is emitted as two stacked samples -/

theorem flatMap_eq_map_of_singletons {l : List ℚ} {f : ℚ → List ℚ} {h : ℚ → ℚ}
    (H : ∀ x ∈ l, f x = [h x]) : l.flatMap f = l.map h := by
  induction l with
  | nil => simp
  | cons a t ih =>
      rw [List.flatMap_cons, List.map_cons, H a (List.mem_cons_self a t),
        ih (fun x hx => H x (List.mem_cons_of_mem a hx))]
      rfl

theorem take_lt_of_pairwise {g : List ℚ} {k : ℕ} (hp : List.Pairwise (· < ·) g)
    (hk : k < g.length) : ∀ x ∈ g.take k, x < g.getD k 0 := by
  intro x hx
  rcases List.mem_iff_getElem.mp hx with ⟨m, hm, rfl⟩
  have hmk : m < k := by
    have := hm
    rw [List.length_take] at this
    omega
  rw [List.getElem_take, List.getD_eq_getElem _ _ hk]
  exact List.pairwise_iff_getElem.mp hp m k (by omega) hk hmk

/-- C5: when the load `σ` is one of the grid points (`σ = alpha[k]`) of a
span with `L > 0` and `division ≥ 1`, the shear evaluation emits BOTH
branch values at the observation point `x = σ`: sample `k` is `−σ/L`,
sample `k+1` is `1−σ/L`, the two differ by exactly 1, and the paired
abscissa vector repeats `σ` at the same two positions. -/
theorem isoT_stacked_samples (L : ℚ) (d k : ℕ) (hL : 0 < L) (hd : 1 ≤ d)
    (hk : k < d + 1) :
    (isoT L d ((alphaGrid L d).getD k 0)).getD k 0 = -((alphaGrid L d).getD k 0) / L ∧
      (isoT L d ((alphaGrid L d).getD k 0)).getD (k + 1) 0 = 1 - ((alphaGrid L d).getD k 0) / L ∧
      (isoT L d ((alphaGrid L d).getD k 0)).getD (k + 1) 0 -
          (isoT L d ((alphaGrid L d).getD k 0)).getD k 0 = 1 ∧
      (isoTcoord L d ((alphaGrid L d).getD k 0)).getD k 0 = (alphaGrid L d).getD k 0 ∧
      (isoTcoord L d ((alphaGrid L d).getD k 0)).getD (k + 1) 0 = (alphaGrid L d).getD k 0 := by
  have hlen : (alphaGrid L d).length = d + 1 := alphaGrid_length L d
  have hk' : k < (alphaGrid L d).length := by rw [hlen]; exact hk
  set g := alphaGrid L d with hg
  set σ := g.getD k 0 with hσ
  have hσget : σ = g[k] := List.getD_eq_getElem g 0 hk'
  have hσL : σ ≤ L := by
    rw [hσget]
    exact (alphaGrid_mem_bounds hL hd _ (List.getElem_mem hk')).2
  have hdec : g = g.take k ++ σ :: g.drop (k + 1) := by
    rw [hσget, ← List.drop_eq_getElem_cons hk', List.take_append_drop]
  have hpre : ∀ x ∈ g.take k, x < σ := take_lt_of_pairwise (alphaGrid_pairwise hL hd) hk'
  have hklen : (g.take k).length = k := by
    rw [List.length_take]
    omega
  -- the kernel at σ itself produces both stacked samples
  have hker : shearKernel L σ σ = [-σ / L, 1 - σ / L] := by
    unfold shearKernel
    rw [if_neg (lt_irrefl σ), if_neg (lt_irrefl σ)]
  have hkerc : shearCoordKernel σ σ = [σ, σ] := by
    unfold shearCoordKernel
    rw [if_neg (lt_irrefl σ), if_neg (lt_irrefl σ)]
  -- decompose the shear list
  have hT : isoT L d σ = (g.take k).map (fun x => -x / L) ++
      ([-σ / L, 1 - σ / L] ++ (g.drop (k + 1)).flatMap (shearKernel L σ)) := by
    rw [isoT, if_pos hσL, ← hg]
    conv_lhs => rw [hdec]
    rw [List.flatMap_append, List.flatMap_cons, hker]
    congr 1
    exact flatMap_eq_map_of_singletons (fun x hx => by
      unfold shearKernel
      rw [if_pos (hpre x hx)])
  have hTc : isoTcoord L d σ = (g.take k).map (fun x => x) ++
      ([σ, σ] ++ (g.drop (k + 1)).flatMap (shearCoordKernel σ)) := by
    rw [isoTcoord, if_pos hσL, ← hg]
    conv_lhs => rw [hdec]
    rw [List.flatMap_append, List.flatMap_cons, hkerc]
    congr 1
    exact flatMap_eq_map_of_singletons (fun x hx => by
      unfold shearCoordKernel
      rw [if_pos (hpre x hx)])
  have hmaplen : ((g.take k).map (fun x => -x / L)).length = k := by
    rw [List.length_map, hklen]
  have hmaplen2 : ((g.take k).map (fun x : ℚ => x)).length = k := by
    rw [List.length_map, hklen]
  have h1 : (isoT L d σ).getD k 0 = -σ / L := by
    rw [hT, List.getD_append_right _ _ _ _ hmaplen.le, hmaplen]
    simp
  have h2 : (isoT L d σ).getD (k + 1) 0 = 1 - σ / L := by
    rw [hT, List.getD_append_right _ _ _ _ (by omega : ((g.take k).map (fun x => -x / L)).length ≤ k + 1), hmaplen]
    simp
  have h3 : (isoTcoord L d σ).getD k 0 = σ := by
    rw [hTc, List.getD_append_right _ _ _ _ hmaplen2.le, hmaplen2]
    simp
  have h4 : (isoTcoord L d σ).getD (k + 1) 0 = σ := by
    rw [hTc, List.getD_append_right _ _ _ _ (by omega : ((g.take k).map (fun x : ℚ => x)).length ≤ k + 1), hmaplen2]
    simp
  refine ⟨h1, h2, ?_, h3, h4⟩
  rw [h1, h2]
  ring

theorem isoT_stacked_samples_witness :
    (0:ℚ) < 5 ∧ 1 ≤ 4 ∧ 2 < 4 + 1 ∧
      ((isoT 5 4 ((alphaGrid 5 4).getD 2 0)).getD 2 0 = -((alphaGrid 5 4).getD 2 0) / 5 ∧
        (isoT 5 4 ((alphaGrid 5 4).getD 2 0)).getD (2 + 1) 0 = 1 - ((alphaGrid 5 4).getD 2 0) / 5 ∧
        (isoT 5 4 ((alphaGrid 5 4).getD 2 0)).getD (2 + 1) 0 -
            (isoT 5 4 ((alphaGrid 5 4).getD 2 0)).getD 2 0 = 1 ∧
        (isoTcoord 5 4 ((alphaGrid 5 4).getD 2 0)).getD 2 0 = (alphaGrid 5 4).getD 2 0 ∧
        (isoTcoord 5 4 ((alphaGrid 5 4).getD 2 0)).getD (2 + 1) 0 = (alphaGrid 5 4).getD 2 0) :=
  ⟨by norm_num, by norm_num, by norm_num, isoT_stacked_samples 5 4 2 (by norm_num) (by norm_num) (by norm_num)⟩

/-! ## C9 : split_by_sign partitions into maximal same-sign runs -/

theorem splitGo_res_append :
    ∀ (xs cur : List ℚ) (s : Bool) (res : List (List ℚ)),
      splitGo xs cur s res = res ++ splitGo xs cur s [] := by
  intro xs
  induction xs with
  | nil => intro cur s res; simp [splitGo]
  | cons x t ih =>
      intro cur s res
      by_cases h : signB x = s
      · simp only [splitGo, h, ne_eq, not_true_eq_false, if_false]
        exact ih (cur ++ [x]) s res
      · simp only [splitGo, ne_eq, h, not_false_eq_true, if_true, List.nil_append]
        rw [ih [x] (signB x) (res ++ [cur]), ih [x] (signB x) [cur]]
        simp

theorem splitGo_flatten :
    ∀ (xs cur : List ℚ) (s : Bool), (splitGo xs cur s []).flatten = cur ++ xs := by
  intro xs
  induction xs with
  | nil => intro cur s; simp [splitGo]
  | cons x t ih =>
      intro cur s
      by_cases h : signB x = s
      · simp only [splitGo, h, ne_eq, not_true_eq_false, if_false]
        rw [ih (cur ++ [x]) s]
        simp
      · simp only [splitGo, ne_eq, h, not_false_eq_true, if_true, List.nil_append]
        rw [splitGo_res_append t [x] (signB x) [cur]]
        rw [List.flatten_append, ih [x] (signB x)]
        simp

theorem splitGo_altChunks :
    ∀ (xs cur : List ℚ) (s : Bool), cur ≠ [] → (∀ a ∈ cur, signB a = s) →
      altChunks s (splitGo xs cur s []) := by
  intro xs
  induction xs with
  | nil =>
      intro cur s hne hhomo
      simp only [splitGo]
      exact ⟨hne, hhomo, trivial⟩
  | cons x t ih =>
      intro cur s hne hhomo
      by_cases h : signB x = s
      · simp only [splitGo, h, ne_eq, not_true_eq_false, if_false]
        refine ih (cur ++ [x]) s (by simp) ?_
        intro a ha
        rcases List.mem_append.mp ha with ha | ha
        · exact hhomo a ha
        · simp only [List.mem_singleton] at ha
          rw [ha]; exact h
      · simp only [splitGo, ne_eq, h, not_false_eq_true, if_true, List.nil_append]
        rw [splitGo_res_append t [x] (signB x) [cur]]
        have hxs : signB x = !s := by
          cases hsx : signB x <;> cases hs : s <;> simp_all
        refine ⟨hne, hhomo, ?_⟩
        rw [← hxs]
        refine ih [x] (signB x) (by simp) ?_
        intro a ha
        simp only [List.mem_singleton] at ha
        rw [ha]

theorem altChunks_ne_nil :
    ∀ (gs : List (List ℚ)) (s : Bool), altChunks s gs → ∀ g ∈ gs, g ≠ [] := by
  intro gs
  induction gs with
  | nil => intro s _ g hg; cases hg
  | cons g0 t ih =>
      intro s h g hg
      rcases List.mem_cons.mp hg with rfl | hg
      · exact h.1
      · exact ih (!s) h.2.2 g hg

theorem altChunks_homo :
    ∀ (gs : List (List ℚ)) (s : Bool), altChunks s gs →
      ∀ g ∈ gs, ∀ a ∈ g, ∀ b ∈ g, signB a = signB b := by
  intro gs
  induction gs with
  | nil => intro s _ g hg; cases hg
  | cons g0 t ih =>
      intro s h g hg a ha b hb
      rcases List.mem_cons.mp hg with rfl | hg
      · rw [h.2.1 a ha, h.2.1 b hb]
      · exact ih (!s) h.2.2 g hg a ha b hb

theorem altChunks_chain :
    ∀ (gs : List (List ℚ)) (s : Bool), altChunks s gs →
      List.Chain' (fun g h => ∀ a ∈ g, ∀ b ∈ h, ¬ signB a = signB b) gs := by
  intro gs
  induction gs with
  | nil => intro s _; exact List.chain'_nil
  | cons g0 t ih =>
      intro s h
      cases t with
      | nil => simp
      | cons g1 t2 =>
          rw [List.chain'_cons]
          refine ⟨?_, ih (!s) h.2.2⟩
          intro a ha b hb
          rw [h.2.1 a ha, h.2.2.2.1 b hb]
          cases s <;> simp

/-- C9: `split_by_sign` partitions its input into maximal runs of
consecutive same-sign values (zero non-negative): concatenating the
returned sublists reproduces the input, every sublist is nonempty and
sign-homogeneous, adjacent sublists carry opposite signs (maximality),
and on `[1,2,-3,-4,5,0,-1]` it returns `[[1,2],[-3,-4],[5,0],[-1]]`. -/
theorem split_by_sign_spec :
    (∀ l : List ℚ,
      (split_by_sign l).flatten = l ∧
      (∀ g ∈ split_by_sign l, g ≠ []) ∧
      (∀ g ∈ split_by_sign l, ∀ a ∈ g, ∀ b ∈ g, signB a = signB b) ∧
      List.Chain' (fun g h => ∀ a ∈ g, ∀ b ∈ h, ¬ signB a = signB b) (split_by_sign l)) ∧
    split_by_sign [1, 2, -3, -4, 5, 0, -1] = [[1, 2], [-3, -4], [5, 0], [-1]] := by
  constructor
  · intro l
    cases l with
    | nil => simp [split_by_sign]
    | cons x xs =>
        have halt : altChunks (signB x) (splitGo xs [x] (signB x) []) := by
          refine splitGo_altChunks xs [x] (signB x) (by simp) ?_
          intro a ha
          simp only [List.mem_singleton] at ha
          rw [ha]
        refine ⟨?_, ?_, ?_, ?_⟩
        · rw [split_by_sign, splitGo_flatten]
          rfl
        · exact altChunks_ne_nil _ _ halt
        · exact altChunks_homo _ _ halt
        · exact altChunks_chain _ _ halt
  · norm_num [split_by_sign, splitGo, signB]

theorem split_by_sign_spec_witness :
    (split_by_sign [3, -7]).flatten = [3, -7] ∧
      split_by_sign [1, 2, -3, -4, 5, 0, -1] = [[1, 2], [-3, -4], [5, 0], [-1]] :=
  ⟨(split_by_sign_spec.1 [3, -7]).1, split_by_sign_spec.2⟩

/-! ## C3 : the focal-ratio recurrences -/

theorem phyLoop_spec (a b c : List ℚ) :
    ∀ (fuel i : ℕ) (prev : ℚ),
      (i = 0 → prev = 0) → (∀ i0, i = i0 + 1 → prev = phiSpecF a b c i0) →
      phyLoop a b c fuel i prev = (List.range fuel).map (fun t => phiSpecF a b c (i + t)) := by
  intro fuel
  induction fuel with
  | zero => intro i prev _ _; simp [phyLoop]
  | succ n ih =>
      intro i prev h0 h1
      have hstep : phyLoop a b c (n + 1) i prev =
          (if i = 0 then prev
            else b.getD i 0 / (a.getD i 0 + c.getD (i - 1) 0 - b.getD (i - 1) 0 * prev)) ::
            phyLoop a b c n (i + 1)
              (if i = 0 then prev
                else b.getD i 0 / (a.getD i 0 + c.getD (i - 1) 0 - b.getD (i - 1) 0 * prev)) := rfl
      have hcur : (if i = 0 then prev
          else b.getD i 0 / (a.getD i 0 + c.getD (i - 1) 0 - b.getD (i - 1) 0 * prev)) =
          phiSpecF a b c i := by
        cases i with
        | zero => rw [if_pos rfl, h0 rfl]; rfl
        | succ i0 =>
            rw [if_neg (Nat.succ_ne_zero i0), h1 i0 rfl]
            simp [phiSpecF]
      rw [hstep, hcur, ih (i + 1) (phiSpecF a b c i) (fun h => absurd h (Nat.succ_ne_zero i))
        (fun i0 h => by rw [Nat.succ_injective h])]
      rw [List.range_succ_eq_map, List.map_cons, List.map_map]
      simp only [Nat.add_zero]
      congr 1
      apply List.map_congr_left
      intro t _
      simp only [Function.comp_apply]
      congr 1
      omega

theorem ppLoop_spec (a b c : List ℚ) (n : ℕ) :
    ∀ (fuel : ℕ) (prev : ℚ), fuel ≤ n →
      (fuel < n → prev = ppSpecF a b c n (n - fuel - 1)) →
      phyPrimeLoop a b c n fuel fuel prev =
        (List.range fuel).map (fun t => ppSpecF a b c n (n - fuel + t)) := by
  intro fuel
  induction fuel with
  | zero => intro prev _ _; simp [phyPrimeLoop]
  | succ f ih =>
      intro prev hle hprev
      have hstep : phyPrimeLoop a b c n (f + 1) (f + 1) prev =
          (if f + 1 = n then 0
            else b.getD (f + 1 - 1) 0 /
              (c.getD (f + 1 - 1) 0 + a.getD (f + 1) 0 - b.getD (f + 1) 0 * prev)) ::
            phyPrimeLoop a b c n f (f + 1 - 1)
              (if f + 1 = n then 0
                else b.getD (f + 1 - 1) 0 /
                  (c.getD (f + 1 - 1) 0 + a.getD (f + 1) 0 - b.getD (f + 1) 0 * prev)) := rfl
      have hcur : (if f + 1 = n then 0
          else b.getD (f + 1 - 1) 0 /
            (c.getD (f + 1 - 1) 0 + a.getD (f + 1) 0 - b.getD (f + 1) 0 * prev)) =
          ppSpecF a b c n (n - (f + 1)) := by
        by_cases hfn : f + 1 = n
        · rw [if_pos hfn]
          have h0 : n - (f + 1) = 0 := by omega
          rw [h0]
          rfl
        · have hflt : f + 1 < n := by omega
          rw [if_neg hfn, hprev hflt]
          have hk : n - (f + 1) = (n - f - 2) + 1 := by omega
          rw [hk]
          show _ = ppSpecF a b c n ((n - f - 2) + 1)
          rw [ppSpecF]
          have e0 : f + 1 - 1 = f := by omega
          have e1 : n - 2 - (n - f - 2) = f := by omega
          have e2 : n - 1 - (n - f - 2) = f + 1 := by omega
          rw [e0, e1, e2]
          simp only [Nat.add_sub_cancel]
      have hidx : f + 1 - 1 = f := by omega
      rw [hstep, hcur, hidx, ih (ppSpecF a b c n (n - (f + 1))) (by omega)
        (fun _ => by rw [show n - f - 1 = n - (f + 1) from by omega])]
      rw [List.range_succ_eq_map, List.map_cons, List.map_map]
      simp only [Nat.add_zero]
      congr 1
      apply List.map_congr_left
      intro t _
      simp only [Function.comp_apply]
      congr 1
      omega

theorem phy_eq_phiSpecF (a b c : List ℚ) (n : ℕ) :
    phy a b c n = (List.range n).map (phiSpecF a b c) := by
  rw [phy, phyLoop_spec a b c n 0 0 (fun _ => rfl) (fun i0 h => absurd h (by omega))]
  apply List.map_congr_left
  intro t _
  rw [Nat.zero_add]

theorem phyPrime_eq_ppSpecF (a b c : List ℚ) (n : ℕ) :
    phyPrime a b c n = ((List.range n).map (ppSpecF a b c n)).reverse := by
  rw [phyPrime, ppLoop_spec a b c n n 0 le_rfl (fun h => absurd h (lt_irrefl n))]
  congr 1
  apply List.map_congr_left
  intro t _
  congr 1
  omega

theorem phyPrime_getD (a b c : List ℚ) (n : ℕ) {i : ℕ} (hi : i < n) :
    (phyPrime a b c n).getD i 0 = ppSpecF a b c n (n - 1 - i) := by
  have hlen : (((List.range n).map (ppSpecF a b c n)).reverse).length = n := by simp
  rw [phyPrime_eq_ppSpecF, List.getD_eq_getElem _ _ (by rw [hlen]; exact hi),
    List.getElem_reverse]
  simp only [List.length_map, List.length_range]
  rw [List.getElem_map, List.getElem_range]

/-- C3: for equal-length coefficient vectors `a`, `b`, `c` of size `n`,
`rapport_focau::phy()` returns `n` values with `phi[0] = 0` and, for
`1 ≤ i < n`, `phi[i] = b[i] / (a[i] + c[i-1] − b[i-1]·phi[i-1])`;
`rapport_focau::phy_prime()` returns `n` values in span order with
`phi_prime[n-1] = 0` and, for `i+1 < n`,
`phi_prime[i] = b[i] / (c[i] + a[i+1] − b[i+1]·phi_prime[i+1])`. -/
theorem focal_ratio_recurrences (a b c : List ℚ) (n : ℕ)
    (ha : a.length = n) (hb : b.length = n) (hc : c.length = n) :
    (phy a b c n).length = n ∧
      (0 < n → (phy a b c n).getD 0 0 = 0) ∧
      (∀ i : ℕ, 1 ≤ i → i < n → (phy a b c n).getD i 0 =
        b.getD i 0 /
          (a.getD i 0 + c.getD (i - 1) 0 - b.getD (i - 1) 0 * (phy a b c n).getD (i - 1) 0)) ∧
      (phyPrime a b c n).length = n ∧
      (0 < n → (phyPrime a b c n).getD (n - 1) 0 = 0) ∧
      (∀ i : ℕ, i + 1 < n → (phyPrime a b c n).getD i 0 =
        b.getD i 0 /
          (c.getD i 0 + a.getD (i + 1) 0 - b.getD (i + 1) 0 * (phyPrime a b c n).getD (i + 1) 0)) := by
  refine ⟨?_, ?_, ?_, ?_, ?_, ?_⟩
  · rw [phy_eq_phiSpecF]; simp
  · intro hn
    rw [phy_eq_phiSpecF, getD_range_map _ _ hn]
    rfl
  · intro i h1 h2
    rw [phy_eq_phiSpecF, getD_range_map _ _ h2, getD_range_map _ _ (by omega : i - 1 < n)]
    cases i with
    | zero => omega
    | succ i0 =>
        have e0 : i0 + 1 - 1 = i0 := by omega
        rw [e0]
        rfl
  · rw [phyPrime_eq_ppSpecF]; simp
  · intro hn
    rw [phyPrime_getD a b c n (by omega : n - 1 < n)]
    have e0 : n - 1 - (n - 1) = 0 := by omega
    rw [e0]
    rfl
  · intro i hi
    rw [phyPrime_getD a b c n (by omega : i < n), phyPrime_getD a b c n (by omega : i + 1 < n)]
    have hk : n - 1 - i = (n - 2 - i) + 1 := by omega
    rw [hk, ppSpecF]
    have e1 : n - 2 - (n - 2 - i) = i := by omega
    have e2 : n - 1 - (n - 2 - i) = i + 1 := by omega
    have e3 : n - 1 - (i + 1) = n - 2 - i := by omega
    rw [e1, e2, e3]

theorem focal_ratio_recurrences_witness :
    ([4, 5, 6] : List ℚ).length = 3 ∧ ([1, 2, 3] : List ℚ).length = 3 ∧
      ([7, 8, 9] : List ℚ).length = 3 ∧
      ((phy [4, 5, 6] [1, 2, 3] [7, 8, 9] 3).length = 3 ∧
        (0 < 3 → (phy [4, 5, 6] [1, 2, 3] [7, 8, 9] 3).getD 0 0 = 0) ∧
        (∀ i : ℕ, 1 ≤ i → i < 3 → (phy [4, 5, 6] [1, 2, 3] [7, 8, 9] 3).getD i 0 =
          ([1, 2, 3] : List ℚ).getD i 0 /
            (([4, 5, 6] : List ℚ).getD i 0 + ([7, 8, 9] : List ℚ).getD (i - 1) 0 -
              ([1, 2, 3] : List ℚ).getD (i - 1) 0 *
                (phy [4, 5, 6] [1, 2, 3] [7, 8, 9] 3).getD (i - 1) 0)) ∧
        (phyPrime [4, 5, 6] [1, 2, 3] [7, 8, 9] 3).length = 3 ∧
        (0 < 3 → (phyPrime [4, 5, 6] [1, 2, 3] [7, 8, 9] 3).getD (3 - 1) 0 = 0) ∧
        (∀ i : ℕ, i + 1 < 3 → (phyPrime [4, 5, 6] [1, 2, 3] [7, 8, 9] 3).getD i 0 =
          ([1, 2, 3] : List ℚ).getD i 0 /
            (([7, 8, 9] : List ℚ).getD i 0 + ([4, 5, 6] : List ℚ).getD (i + 1) 0 -
              ([1, 2, 3] : List ℚ).getD (i + 1) 0 *
                (phyPrime [4, 5, 6] [1, 2, 3] [7, 8, 9] 3).getD (i + 1) 0))) :=
  ⟨by norm_num, by norm_num, by norm_num,
    focal_ratio_recurrences [4, 5, 6] [1, 2, 3] [7, 8, 9] 3 (by norm_num) (by norm_num)
      (by norm_num)⟩

/-! ## C7 : what single-span construction actually validates -/

theorem checkPosBounds_ok_iff (L : ℚ) :
    ∀ pos : List ℚ, checkPosBounds L pos = Except.ok () ↔ ∀ p ∈ pos, 0 ≤ p ∧ p ≤ L := by
  intro pos
  induction pos with
  | nil => simp [checkPosBounds]
  | cons p ps ih =>
      by_cases h1 : L < p
      · simp only [checkPosBounds, if_pos h1]
        constructor
        · intro h; cases h
        · rintro h
          exact absurd (h p (List.mem_cons_self p ps)).2 (not_le.mpr h1)
      · by_cases h2 : p < 0
        · simp only [checkPosBounds, if_neg h1, if_pos h2]
          constructor
          · intro h; cases h
          · rintro h
            exact absurd (h p (List.mem_cons_self p ps)).1 (not_le.mpr h2)
        · simp only [checkPosBounds, if_neg h1, if_neg h2]
          rw [ih, List.forall_mem_cons]
          constructor
          · intro h
            exact ⟨⟨not_lt.mp h2, not_lt.mp h1⟩, h⟩
          · rintro ⟨_, h⟩
            exact h

theorem checkStrictInc_ok_iff :
    ∀ pos : List ℚ, checkStrictInc pos = Except.ok () ↔ List.Chain' (· < ·) pos := by
  intro pos
  induction pos with
  | nil => simp [checkStrictInc]
  | cons p0 rest ih =>
      cases rest with
      | nil => simp [checkStrictInc]
      | cons p1 ps =>
          by_cases h : p1 ≤ p0
          · simp only [checkStrictInc, if_pos h, List.chain'_cons]
            constructor
            · intro hcontra; cases hcontra
            · rintro ⟨hlt, _⟩
              exact absurd hlt (not_lt.mpr h)
          · have hlt : p0 < p1 := not_le.mp h
            simp only [checkStrictInc, if_neg h, List.chain'_cons]
            rw [ih]
            exact ⟨fun hc => ⟨hlt, hc⟩, fun hc => hc.2⟩

/-- C7 (amended): the single-span constructors perform NO validation of
`L` or `division` (any values, including `L ≤ 0` and `division ≤ 0`,
pass), and for a variable-inertia table of at least two points the
construction succeeds exactly when the value/position tables have equal
lengths, the last position equals `L`, every position lies in `[0, L]`,
and the positions are strictly increasing. -/
theorem construireTravee_ok_iff (L E : ℚ) (IVals pos : List ℚ) (d : ℤ)
    (hpos : 2 ≤ pos.length) :
    construireTravee L E IVals pos d = Except.ok () ↔
      (IVals.length = pos.length ∧ pos.getLast? = some L ∧
        (∀ p ∈ pos, 0 ≤ p ∧ p ≤ L) ∧ List.Chain' (· < ·) pos) := by
  by_cases h1 : IVals.length = 1
  · have hnorm : normalizeTable L IVals pos = ([IVals.getD 0 0, IVals.getD 0 0], [0, L]) := by
      rw [normalizeTable, if_pos h1]
    rw [construireTravee, hnorm]
    rw [if_neg (by simp)]
    rw [if_neg (by simp)]
    cases hcb : checkPosBounds L pos with
    | error e =>
        apply iff_of_false
        · simp
        · rintro ⟨hA, _⟩
          omega
    | ok u =>
        rw [if_pos (by omega)]
        apply iff_of_false
        · simp
        · rintro ⟨hA, _⟩
          omega
  · have hnorm : normalizeTable L IVals pos = (IVals, pos) := by
      rw [normalizeTable, if_neg h1]
    rw [construireTravee, hnorm]
    by_cases h2 : IVals.length = pos.length
    · rw [if_neg (by simpa using h2)]
      by_cases h3 : pos.getLast? = some L
      · rw [if_neg (by simpa using h3)]
        cases hcb : checkPosBounds L pos with
        | error e =>
            apply iff_of_false
            · simp
            · rintro ⟨_, _, hb, _⟩
              rw [(checkPosBounds_ok_iff L pos).mpr hb] at hcb
              cases hcb
        | ok u =>
            cases u
            rw [if_neg (by omega)]
            constructor
            · intro h
              exact ⟨h2, h3, (checkPosBounds_ok_iff L pos).mp hcb,
                (checkStrictInc_ok_iff pos).mp h⟩
            · rintro ⟨_, _, _, hch⟩
              exact (checkStrictInc_ok_iff pos).mpr hch
      · rw [if_pos (by simpa using h3)]
        apply iff_of_false
        · simp
        · rintro ⟨_, hl, _⟩
          exact h3 hl
    · rw [if_pos (by simpa using h2)]
      apply iff_of_false
      · simp
      · rintro ⟨hA, _⟩
        exact h2 hA

/-- C7 counterexample: a variable-inertia span with `division = 0`
(claimed to be rejected) constructs WITHOUT any validation error. -/
theorem construireTravee_counterexample :
    construireTravee 1 1 [2, 3] [0, 1] 0 = Except.ok () := by
  norm_num [construireTravee, normalizeTable, checkPosBounds, checkStrictInc]

theorem construireTravee_ok_iff_witness :
    2 ≤ ([0, 1] : List ℚ).length ∧
      (construireTravee 1 1 [2, 3] [0, 1] 5 = Except.ok () ↔
        (([2, 3] : List ℚ).length = ([0, 1] : List ℚ).length ∧
          ([0, 1] : List ℚ).getLast? = some 1 ∧
          (∀ p ∈ ([0, 1] : List ℚ), 0 ≤ p ∧ p ≤ 1) ∧
          List.Chain' (· < ·) ([0, 1] : List ℚ))) :=
  ⟨by norm_num, construireTravee_ok_iff 1 1 [2, 3] [0, 1] 5 (by norm_num)⟩

/-! ## C10 : bounds safety of the trapezoid summation loop -/

theorem trapezeLoop_isSome (x y : List ℚ) (hlen : x.length = y.length) :
    ∀ (fuel i : ℕ) (aire err : ℚ), i + fuel + 1 = x.length →
      (trapezeLoop x y fuel i aire err).isSome = true := by
  intro fuel
  induction fuel with
  | zero => intro i aire err _; simp [trapezeLoop]
  | succ f ih =>
      intro i aire err hcount
      have hx1 : i < x.length := by omega
      have hx2 : i + 1 < x.length := by omega
      have hy1 : i < y.length := by omega
      have hy2 : i + 1 < y.length := by omega
      rw [trapezeLoop, List.getElem?_eq_getElem hx1, List.getElem?_eq_getElem hx2,
        List.getElem?_eq_getElem hy1, List.getElem?_eq_getElem hy2]
      by_cases hh : x[i + 1] - x[i] ≤ 0
      · simp [hh]
      · simp only [hh, if_false]
        exact ih (i + 1) _ _ (by omega)

/-- C10 (amended): for every NONEMPTY pair of equal-length vectors with
sorted abscissas (and realistically sized, `x.size() ≤ 2^64`, which every
C++ vector satisfies), all element accesses of the trapezoid loop are in
bounds and `trapeze` returns a value or throws one of its documented
errors (never `none`).  The empty pair is excluded: there `x.size()-1`
wraps around in `size_t` and `x[0]` is read out of bounds. -/
theorem trapeze_no_oob (x y : List ℚ) (hlen : x.length = y.length)
    (hsorted : sortedB x = true) (hne : x ≠ []) (hsz : x.length ≤ 2 ^ 64) :
    (trapeze x y).isSome = true := by
  have hlen1 : 1 ≤ x.length := by
    cases x with
    | nil => exact absurd rfl hne
    | cons a t => simp
  rw [trapeze, if_neg (by omega), if_neg (by rw [hsorted]; simp)]
  have hfuel : sizeSub1 x.length = x.length - 1 := by
    rw [sizeSub1]
    omega
  rw [hfuel]
  exact trapezeLoop_isSome x y hlen (x.length - 1) 0 0 0 (by omega)

/-- C10 counterexample: the pair of two empty vectors passes both
validations, yet the loop bound `x.size() - 1` wraps around to `2^64 − 1`
in `size_t` and the very first access `x[0]` is out of bounds (modelled
as `none`). -/
theorem trapeze_empty_counterexample :
    ([] : List ℚ).length = ([] : List ℚ).length ∧ sortedB ([] : List ℚ) = true ∧
      trapeze ([] : List ℚ) ([] : List ℚ) = none := by
  refine ⟨rfl, rfl, ?_⟩
  rw [trapeze, if_neg (by simp), if_neg (by simp [sortedB])]
  have h1 : sizeSub1 ([] : List ℚ).length = (2 ^ 64 - 2) + 1 := by
    rw [sizeSub1]
    norm_num
  rw [h1, trapezeLoop]
  simp

theorem trapeze_no_oob_witness :
    ([0, 1] : List ℚ).length = ([2, 3] : List ℚ).length ∧
      sortedB [0, 1] = true ∧ ([0, 1] : List ℚ) ≠ [] ∧
      ([0, 1] : List ℚ).length ≤ 2 ^ 64 ∧
      (trapeze [0, 1] [2, 3]).isSome = true :=
  ⟨by norm_num, by norm_num [sortedB], by simp, by norm_num,
    trapeze_no_oob [0, 1] [2, 3] (by norm_num) (by norm_num [sortedB]) (by simp)
      (by norm_num)⟩

/-! ## C2 : the superposition structure of the hyperstatic moment -/

theorem getD_map_list {α β : Type} (f : α → β) (l : List α) (d0 : α) (db : β) {k : ℕ}
    (hk : k < l.length) : (l.map f).getD k db = f (l.getD k d0) := by
  rw [List.getD_eq_getElem _ _ (by simpa using hk), List.getElem_map,
    List.getD_eq_getElem _ _ hk]

/-- C2: every entry of the hyperstatic bending-moment surface decomposes
as claimed: for observed span `t`, section index `k`, loaded span `i` and
load-position index `j`, entry `i·(division+1) + j` of
`M_flechissant[t][k]` equals the isostatic moment `Mu_iso_total[t][k][j]`
(present exactly when `t = i`) plus the linear interpolation between
`GAUCHE_DROITE[i][t][j]` and `GAUCHE_DROITE[i][t+1][j]` at the observed
section abscissa across span `t`'s length. -/
theorem mFlechissant_superposition (Ls Es Is : List ℚ) (d : ℕ) (t k i j : ℕ)
    (ht : t < Ls.length) (hk : k < d + 1) (hi : i < Ls.length) (hj : j < d + 1) :
    (((mFlechissant Ls Es Is d).getD t []).getD k []).getD (i * (d + 1) + j) 0 =
      (if t = i then (((muIsoTotal Ls d).getD t []).getD k []).getD j 0 else 0) +
        interpolate (gdGet Ls Es Is d i t j) (gdGet Ls Es Is d i (t + 1) j)
          ((alphaGrid (Ls.getD t 0) d).getD k 0) (Ls.getD t 0) := by
  rw [mFlechissant, getD_range_map _ _ ht, getD_range_map _ _ hk,
    flatMap_range_blocks (d + 1) Ls.length
      (fun i2 j2 =>
        if t = i2 then
          (((muIsoTotal Ls d).getD t []).getD k []).getD j2 0 +
            interpolate (gdGet Ls Es Is d i2 t j2) (gdGet Ls Es Is d i2 (t + 1) j2)
              ((alphaGrid (Ls.getD t 0) d).getD k 0) (Ls.getD t 0)
        else
          interpolate (gdGet Ls Es Is d i2 t j2) (gdGet Ls Es Is d i2 (t + 1) j2)
            ((alphaGrid (Ls.getD t 0) d).getD k 0) (Ls.getD t 0)) i j hi hj]
  by_cases hti : t = i
  · rw [if_pos hti, if_pos hti]
  · rw [if_neg hti, if_neg hti, zero_add]

theorem mFlechissant_superposition_witness :
    0 < ([1, 1] : List ℚ).length ∧ 0 < 1 + 1 ∧ 1 < ([1, 1] : List ℚ).length ∧ 0 < 1 + 1 ∧
      (((mFlechissant [1, 1] [1, 1] [1, 1] 1).getD 0 []).getD 0 []).getD (1 * (1 + 1) + 0) 0 =
        (if 0 = 1 then (((muIsoTotal [1, 1] 1).getD 0 []).getD 0 []).getD 0 0 else 0) +
          interpolate (gdGet [1, 1] [1, 1] [1, 1] 1 1 0 0) (gdGet [1, 1] [1, 1] [1, 1] 1 1 (0 + 1) 0)
            ((alphaGrid (([1, 1] : List ℚ).getD 0 0) 1).getD 0 0) (([1, 1] : List ℚ).getD 0 0) :=
  ⟨by norm_num, by norm_num, by norm_num, by norm_num,
    mFlechissant_superposition [1, 1] [1, 1] [1, 1] 1 0 0 1 0 (by norm_num) (by norm_num)
      (by norm_num) (by norm_num)⟩

/-! ## C1 : a single-span structure degenerates to the isostatic solver -/

theorem getD_replicate_zero (n j : ℕ) : (List.replicate n (0 : ℚ)).getD j 0 = 0 := by
  rw [List.getD_eq_getElem?_getD, List.getElem?_replicate]
  split <;> rfl

theorem phyAll_single (L E I : ℚ) : phyAll [L] [E] [I] = [0] := rfl

theorem phyPrimeAll_single (L E I : ℚ) : phyPrimeAll [L] [E] [I] = [0] := rfl

theorem momentGauche_single (L E I : ℚ) (d : ℕ) :
    momentGauche [L] [E] [I] d = [List.replicate (d + 1) 0] := by
  have h1 : List.range ([L] : List ℚ).length = [0] := rfl
  rw [momentGauche, h1, List.map_cons, List.map_nil]
  refine congrArg (fun r => [r]) ?_
  rw [List.eq_replicate_iff]
  refine ⟨by simp, ?_⟩
  intro b hb
  rcases List.mem_map.mp hb with ⟨j, _, rfl⟩
  rw [phyAll_single]
  simp

theorem momentDroite_single (L E I : ℚ) (d : ℕ) :
    momentDroite [L] [E] [I] d = [List.replicate (d + 1) 0] := by
  have h1 : List.range ([L] : List ℚ).length = [0] := rfl
  rw [momentDroite, h1, List.map_cons, List.map_nil]
  refine congrArg (fun r => [r]) ?_
  rw [List.eq_replicate_iff]
  refine ⟨by simp, ?_⟩
  intro b hb
  rcases List.mem_map.mp hb with ⟨j, _, rfl⟩
  rw [phyPrimeAll_single]
  simp

theorem mAppuisGauche_single (L E I : ℚ) (d : ℕ) :
    mAppuisGauche [L] [E] [I] d 0 = [List.replicate (d + 1) 0] := by
  have h1 : List.range (0 + 1) = [0] := rfl
  rw [mAppuisGauche, h1, List.map_cons, List.map_nil]
  refine congrArg (fun r => [r]) ?_
  rw [momentGauche_single]
  have h2 : (([List.replicate (d + 1) 0] : List (List ℚ)).getD 0 []) =
      List.replicate (d + 1) (0 : ℚ) := rfl
  rw [h2, List.map_replicate, mul_zero]

theorem mAppuisDroite_single (L E I : ℚ) (d : ℕ) :
    mAppuisDroite [L] [E] [I] d 0 = [List.replicate (d + 1) 0] := by
  have h1 : List.range (([L] : List ℚ).length - 0) = [0] := rfl
  rw [mAppuisDroite, h1, List.map_cons, List.map_nil]
  refine congrArg (fun r => [r]) ?_
  rw [momentDroite_single]
  have h2 : (([List.replicate (d + 1) 0] : List (List ℚ)).getD 0 []) =
      List.replicate (d + 1) (0 : ℚ) := rfl
  rw [h2, List.map_replicate, mul_zero]

theorem gaucheDroite_single (L E I : ℚ) (d : ℕ) :
    gaucheDroite [L] [E] [I] d =
      [[List.replicate (d + 1) 0, List.replicate (d + 1) 0]] := by
  have h1 : List.range ([L] : List ℚ).length = [0] := rfl
  rw [gaucheDroite, h1, List.map_cons, List.map_nil, mAppuisGauche_single,
    mAppuisDroite_single]
  rfl

theorem gdGet_single_zero (L E I : ℚ) (d : ℕ) (i t j : ℕ) :
    gdGet [L] [E] [I] d i t j = 0 := by
  rw [gdGet, gaucheDroite_single]
  cases i with
  | zero =>
      cases t with
      | zero => exact getD_replicate_zero (d + 1) j
      | succ t0 =>
          cases t0 with
          | zero => exact getD_replicate_zero (d + 1) j
          | succ t1 => rfl
  | succ i0 => rfl

theorem isoM_length_of_le {L σ : ℚ} {d : ℕ} (h : σ ≤ L) : (isoM L d σ).length = d + 1 := by
  rw [isoM, if_pos h, List.length_map, alphaGrid_length]

theorem isoT_eq_flatMap {L σ : ℚ} {d : ℕ} (h : σ ≤ L) :
    isoT L d σ = (alphaGrid L d).flatMap (shearKernel L σ) := by
  rw [isoT, if_pos h]

theorem isoOMEGA_length (L E I : ℚ) (d : ℕ) (σ : ℚ) :
    (isoOMEGA L E I d σ).length = d + 1 := by
  rw [isoOMEGA]
  split
  · rw [List.length_map, alphaGrid_length]
  · rw [List.length_replicate]

theorem isoV_length (L E I : ℚ) (d : ℕ) (σ : ℚ) :
    (isoV L E I d σ).length = d + 1 := by
  rw [isoV]
  split
  · rw [List.length_map, alphaGrid_length]
  · rw [List.length_replicate]

theorem range_map_getD {l : List ℚ} {m : ℕ} (h : l.length = m) :
    (List.range m).map (fun j => l.getD j 0) = l := by
  rw [← h]
  exact map_getD_range l 0

theorem hyper_moment_single (L E I : ℚ) (d : ℕ) (hL : 0 < L) (hd : 1 ≤ d) :
    mFlechissant [L] [E] [I] d = [isoMomentSurface L d] := by
  have h1 : List.range ([L] : List ℚ).length = [0] := rfl
  rw [mFlechissant]
  simp only [h1, List.map_cons, List.map_nil, List.flatMap_cons, List.flatMap_nil,
    List.append_nil, eq_self_iff_true, if_true, gdGet_single_zero, interpolate,
    zero_mul, zero_div, add_zero, zero_add, muIsoTotal, List.getD_cons_zero]
  refine congrArg (fun r => [r]) ?_
  apply List.ext_getElem
  · rw [List.length_map, List.length_range, isoMomentSurface, List.length_map, alphaGrid_length]
  intro k hk1 hk2
  have hk : k < d + 1 := by simpa using hk1
  rw [List.getElem_map, List.getElem_range]
  have hgl : k < (alphaGrid L d).length := by rw [alphaGrid_length]; exact hk
  have hmem : (alphaGrid L d).getD k 0 ∈ alphaGrid L d := by
    rw [List.getD_eq_getElem _ _ hgl]
    exact List.getElem_mem hgl
  have hσ : (alphaGrid L d).getD k 0 ≤ L := (alphaGrid_mem_bounds hL hd _ hmem).2
  have hsurf : (isoMomentSurface L d).getD k [] = isoM L d ((alphaGrid L d).getD k 0) := by
    rw [isoMomentSurface]
    exact getD_map_list _ _ 0 [] hgl
  have hrhs : (isoMomentSurface L d)[k] = isoM L d ((alphaGrid L d).getD k 0) := by
    rw [← List.getD_eq_getElem _ _ hk2]
    exact hsurf
  rw [hsurf, range_map_getD (isoM_length_of_le hσ), hrhs]

theorem hyper_rotation_single (L E I : ℚ) (d : ℕ) :
    wRotaion [L] [E] [I] d = [isoRotationSurface L E I d] := by
  have h1 : List.range ([L] : List ℚ).length = [0] := rfl
  rw [wRotaion]
  simp only [h1, List.map_cons, List.map_nil, List.flatMap_cons, List.flatMap_nil,
    List.append_nil, eq_self_iff_true, if_true, gdGet_single_zero, calculRotation,
    neg_zero, zero_mul, zero_div, sub_zero, add_zero, wIsoTotal, List.getD_cons_zero]
  refine congrArg (fun r => [r]) ?_
  apply List.ext_getElem
  · rw [List.length_map, List.length_range, isoRotationSurface, List.length_map,
      alphaGrid_length]
  intro k hk1 hk2
  have hk : k < d + 1 := by simpa using hk1
  rw [List.getElem_map, List.getElem_range]
  have hgl : k < (alphaGrid L d).length := by rw [alphaGrid_length]; exact hk
  have hsurf : (isoRotationSurface L E I d).getD k [] =
      isoOMEGA L E I d ((alphaGrid L d).getD k 0) := by
    rw [isoRotationSurface]
    exact getD_map_list _ _ 0 [] hgl
  have hrhs : (isoRotationSurface L E I d)[k] = isoOMEGA L E I d ((alphaGrid L d).getD k 0) := by
    rw [← List.getD_eq_getElem _ _ hk2]
    exact hsurf
  rw [hsurf, range_map_getD (isoOMEGA_length L E I d _), hrhs]

theorem hyper_fleche_single (L E I : ℚ) (d : ℕ) :
    vFleche [L] [E] [I] d = [isoFlecheSurface L E I d] := by
  have h1 : List.range ([L] : List ℚ).length = [0] := rfl
  rw [vFleche]
  simp only [h1, List.map_cons, List.map_nil, List.flatMap_cons, List.flatMap_nil,
    List.append_nil, eq_self_iff_true, if_true, gdGet_single_zero, calculFleche,
    neg_zero, zero_mul, zero_div, sub_zero, add_zero, vIsoTotal, List.getD_cons_zero]
  refine congrArg (fun r => [r]) ?_
  apply List.ext_getElem
  · rw [List.length_map, List.length_range, isoFlecheSurface, List.length_map,
      alphaGrid_length]
  intro k hk1 hk2
  have hk : k < d + 1 := by simpa using hk1
  rw [List.getElem_map, List.getElem_range]
  have hgl : k < (alphaGrid L d).length := by rw [alphaGrid_length]; exact hk
  have hsurf : (isoFlecheSurface L E I d).getD k [] =
      isoV L E I d ((alphaGrid L d).getD k 0) := by
    rw [isoFlecheSurface]
    exact getD_map_list _ _ 0 [] hgl
  have hrhs : (isoFlecheSurface L E I d)[k] = isoV L E I d ((alphaGrid L d).getD k 0) := by
    rw [← List.getD_eq_getElem _ _ hk2]
    exact hsurf
  rw [hsurf, range_map_getD (isoV_length L E I d _), hrhs]

theorem tWalk_zero (rowT rowT1 : List ℚ) (l s : ℚ)
    (hr : ∀ j, rowT.getD j 0 = 0) (hr1 : ∀ j, rowT1.getD j 0 = 0) :
    ∀ (g : List ℚ) (T0 : List ℚ) (j c : ℕ),
      T0.drop c = g.flatMap (shearKernel l s) →
      tWalk T0 rowT rowT1 l s g j c = g.flatMap (shearKernel l s) := by
  intro g
  induction g with
  | nil => intro T0 j c _; rfl
  | cons x rest ih =>
      intro T0 j c h
      have hmi : interpolateEffortTranchant (rowT.getD j 0) (rowT1.getD j 0) l = 0 := by
        rw [hr j, hr1 j, interpolateEffortTranchant]
        simp
      rw [List.flatMap_cons] at h ⊢
      by_cases hsx : s = x
      · have hker : shearKernel l s x = [-x / l, 1 - x / l] := by
          rw [shearKernel, ← hsx, if_neg (lt_irrefl s), if_neg (lt_irrefl s)]
        rw [hker] at h ⊢
        rw [List.cons_append, List.cons_append, List.nil_append] at h ⊢
        have e1 : T0.getD c 0 = -x / l := getD_drop_cons 0 h
        have h2 : T0.drop (c + 1) = (1 - x / l) :: rest.flatMap (shearKernel l s) :=
          drop_succ_of_drop_cons h
        have e2 : T0.getD (c + 1) 0 = 1 - x / l := getD_drop_cons 0 h2
        have h3 : T0.drop (c + 1 + 1) = rest.flatMap (shearKernel l s) :=
          drop_succ_of_drop_cons h2
        have hstep : tWalk T0 rowT rowT1 l s (x :: rest) j c =
            (T0.getD c 0 + interpolateEffortTranchant (rowT.getD j 0) (rowT1.getD j 0) l) ::
              (T0.getD (c + 1) 0 +
                interpolateEffortTranchant (rowT.getD j 0) (rowT1.getD j 0) l) ::
              tWalk T0 rowT rowT1 l s rest (j + 1) (c + 2) := by
          rw [tWalk, if_pos hsx]
        rw [hstep, hmi, e1, e2, add_zero, add_zero,
          ih T0 (j + 1) (c + 2) (by rw [show c + 2 = c + 1 + 1 from rfl]; exact h3)]
      · have hstep : tWalk T0 rowT rowT1 l s (x :: rest) j c =
            (T0.getD c 0 + interpolateEffortTranchant (rowT.getD j 0) (rowT1.getD j 0) l) ::
              tWalk T0 rowT rowT1 l s rest (j + 1) (c + 1) := by
          rw [tWalk, if_neg hsx]
        rcases lt_trichotomy x s with hlt | heq | hgt
        · have hker : shearKernel l s x = [-x / l] := by
            rw [shearKernel, if_pos hlt]
          rw [hker] at h ⊢
          rw [List.cons_append, List.nil_append] at h ⊢
          have e1 : T0.getD c 0 = -x / l := getD_drop_cons 0 h
          have h2 : T0.drop (c + 1) = rest.flatMap (shearKernel l s) :=
            drop_succ_of_drop_cons h
          rw [hstep, hmi, e1, add_zero, ih T0 (j + 1) (c + 1) h2]
        · exact absurd heq.symm hsx
        · have hker : shearKernel l s x = [1 - x / l] := by
            rw [shearKernel, if_neg (asymm hgt), if_pos hgt]
          rw [hker] at h ⊢
          rw [List.cons_append, List.nil_append] at h ⊢
          have e1 : T0.getD c 0 = 1 - x / l := getD_drop_cons 0 h
          have h2 : T0.drop (c + 1) = rest.flatMap (shearKernel l s) :=
            drop_succ_of_drop_cons h
          rw [hstep, hmi, e1, add_zero, ih T0 (j + 1) (c + 1) h2]

theorem hyper_shear_single (L E I : ℚ) (d : ℕ) (hL : 0 < L) (hd : 1 ≤ d) :
    tEffortTranchant [L] [E] [I] d = [isoShearSurface L d] := by
  have h1 : List.range ([L] : List ℚ).length = [0] := rfl
  rw [tEffortTranchant]
  simp only [h1, List.map_cons, List.map_nil, List.flatMap_cons, List.flatMap_nil,
    List.append_nil, eq_self_iff_true, if_true, gaucheDroite_single,
    List.getD_cons_zero, List.getD_cons_succ, tIsoTotal]
  refine congrArg (fun r => [r]) ?_
  apply List.ext_getElem
  · rw [List.length_map, List.length_range, isoShearSurface, List.length_map, alphaGrid_length]
  intro k hk1 hk2
  have hk : k < d + 1 := by simpa using hk1
  rw [List.getElem_map, List.getElem_range]
  have hgl : k < (alphaGrid L d).length := by rw [alphaGrid_length]; exact hk
  have hmem : (alphaGrid L d).getD k 0 ∈ alphaGrid L d := by
    rw [List.getD_eq_getElem _ _ hgl]
    exact List.getElem_mem hgl
  have hσ : (alphaGrid L d).getD k 0 ≤ L := (alphaGrid_mem_bounds hL hd _ hmem).2
  have hsurf : (isoShearSurface L d).getD k [] = isoT L d ((alphaGrid L d).getD k 0) := by
    rw [isoShearSurface]
    exact getD_map_list _ _ 0 [] hgl
  rw [hsurf]
  rw [tWalk_zero _ _ L ((alphaGrid L d).getD k 0)
    (fun j => getD_replicate_zero (d + 1) j) (fun j => getD_replicate_zero (d + 1) j)
    (alphaGrid L d) (isoT L d ((alphaGrid L d).getD k 0)) 0 0
    (by rw [List.drop_zero, isoT_eq_flatMap hσ])]
  have hrhs : (isoShearSurface L d)[k] = isoT L d ((alphaGrid L d).getD k 0) := by
    rw [← List.getD_eq_getElem _ _ hk2]
    exact hsurf
  rw [← isoT_eq_flatMap hσ, hrhs]

/-- C1: for a single-span structure (`N = 1` with `L > 0`, `E > 0`,
`I > 0`, `division ≥ 1`), `phi = [0]` and `phi_prime = [0]`, every entry
of `GAUCHE_DROITE` is zero, and the hyperstatic moment, rotation,
deflection and shear influence surfaces coincide exactly with the
isostatic single-span solver's surfaces. -/
theorem single_span_hyper_eq_iso (L E I : ℚ) (d : ℕ)
    (hL : 0 < L) (hE : 0 < E) (hI : 0 < I) (hd : 1 ≤ d) :
    phyAll [L] [E] [I] = [0] ∧ phyPrimeAll [L] [E] [I] = [0] ∧
      (∀ gr ∈ gaucheDroite [L] [E] [I] d, ∀ row ∈ gr, ∀ v ∈ row, v = 0) ∧
      mFlechissant [L] [E] [I] d = [isoMomentSurface L d] ∧
      wRotaion [L] [E] [I] d = [isoRotationSurface L E I d] ∧
      vFleche [L] [E] [I] d = [isoFlecheSurface L E I d] ∧
      tEffortTranchant [L] [E] [I] d = [isoShearSurface L d] := by
  refine ⟨phyAll_single L E I, phyPrimeAll_single L E I, ?_,
    hyper_moment_single L E I d hL hd, hyper_rotation_single L E I d,
    hyper_fleche_single L E I d, hyper_shear_single L E I d hL hd⟩
  intro gr hgr row hrow v hv
  rw [gaucheDroite_single] at hgr
  simp only [List.mem_singleton] at hgr
  rw [hgr] at hrow
  have hrep : row = List.replicate (d + 1) (0 : ℚ) := by
    rcases List.mem_cons.mp hrow with h | h
    · exact h
    · simpa using h
  rw [hrep] at hv
  exact List.eq_of_mem_replicate hv

theorem single_span_hyper_eq_iso_witness :
    (0:ℚ) < 5 ∧ (0:ℚ) < 1 ∧ (0:ℚ) < 1 ∧ 1 ≤ 4 ∧
      (phyAll [5] [1] [1] = [0] ∧ phyPrimeAll [5] [1] [1] = [0] ∧
        (∀ gr ∈ gaucheDroite [5] [1] [1] 4, ∀ row ∈ gr, ∀ v ∈ row, v = 0) ∧
        mFlechissant [5] [1] [1] 4 = [isoMomentSurface 5 4] ∧
        wRotaion [5] [1] [1] 4 = [isoRotationSurface 5 1 1 4] ∧
        vFleche [5] [1] [1] 4 = [isoFlecheSurface 5 1 1 4] ∧
        tEffortTranchant [5] [1] [1] 4 = [isoShearSurface 5 4]) :=
  ⟨by norm_num, by norm_num, by norm_num, by norm_num,
    single_span_hyper_eq_iso 5 1 1 4 (by norm_num) (by norm_num) (by norm_num) (by norm_num)⟩

end LigneInfluence
